import Mathlib

/-!
# Non-interactive git execution layer of `spr` (`git/realgit/realcmd.go`)

A shallow embedding of `realcmd.go` and a verification of its command-execution contract.

Modelling conventions.

* A Go `string` is a `GoString`, a list of Unicode code points.  Byte sequences that are not
  valid UTF-8 have no counterpart here.
* The operating system is explicit state (`World`): the environment returned by `os.Environ`,
  the log of processes run through `exec.Cmd.CombinedOutput`, what was printed on standard
  output, the debug log, and the writes made to `io.Writer` sinks.
* What a process prints and how it exits is not determined by the program; it is given by a
  function `run` of the world and of the command, over which every statement quantifies.
* A run-time panic (index out of range, explicit `panic`) is the result `none`.
* Functions of the Go standard library and of go-git are modelled from their documented
  behaviour; the upper-case mapping of runes above U+007F (`unicode.To(UpperCase, r)`) is a
  parameter `up`.
-/

namespace Spr

/-! ## Strings -/

/-- A Go string, as the sequence of its code points. -/
abbrev GoString := List Char

/-- Go `strings.HasPrefix`: `len(s) >= len(p) && s[:len(p)] == p`. -/
def HasPrefix (s p : GoString) : Bool :=
  decide (p.length ≤ s.length) && (s.take p.length == p)

/-- Go `strings.Index` for a separator of one character: position of its first occurrence. -/
def Index : GoString → Char → Option Nat
  | [], _ => none
  | x :: xs, c => if x = c then some 0 else (Index xs c).map (· + 1)

/-- Go `strings.Count` for a separator of one character. -/
def Count (s : GoString) (c : Char) : Nat := s.count c

/-- The loop of Go `strings.genSplit` (one-character separator, `sepSave = 0`): cut `s` at
the separator at most `k` times; the rest of the string is the last piece. -/
def genSplitLoop (sep : Char) : Nat → GoString → List GoString
  | 0, s => [s]
  | k + 1, s =>
    match Index s sep with
    | none => [s]
    | some m => s.take m :: genSplitLoop sep k (s.drop (m + 1))

/-- Go `strings.genSplit(s, sep, 0, n)` for a separator of one character. -/
def genSplit (s : GoString) (sep : Char) (n : Int) : List GoString :=
  if n = 0 then []
  else
    let n1 : Nat := if n < 0 then Count s sep + 1 else n.toNat
    let n2 : Nat := if n1 > s.length + 1 then s.length + 1 else n1
    genSplitLoop sep (n2 - 1) s

/-- Go `strings.SplitN(s, sep, n)`. -/
def SplitN (s : GoString) (sep : Char) (n : Int) : List GoString := genSplit s sep n

/-- Go `strings.Split(s, sep)`, which is `genSplit(s, sep, 0, -1)`. -/
def Split (s : GoString) (sep : Char) : List GoString := genSplit s sep (-1)

/-- Go `unicode.ToUpper`: runes up to U+007F are mapped by the ASCII rule, the others by the
Unicode case tables, here the parameter `up`. -/
def toUpperRune (up : Char → Char) (r : Char) : Char :=
  if r.toNat ≤ 0x7F then
    if 'a'.toNat ≤ r.toNat ∧ r.toNat ≤ 'z'.toNat then Char.ofNat (r.toNat - ('a'.toNat - 'A'.toNat))
    else r
  else up r

/-- Go `strings.ToUpper`. -/
def ToUpper (up : Char → Char) (s : GoString) : GoString := s.map (toUpperRune up)

/-- Go `unicode.IsSpace`: the Latin-1 cases, and the `White_Space` table above U+00FF. -/
def IsSpace (r : Char) : Bool :=
  let n := r.toNat
  if n ≤ 0xFF then
    n == 0x09 || n == 0x0A || n == 0x0B || n == 0x0C || n == 0x0D || n == 0x20 ||
      n == 0x85 || n == 0xA0
  else
    n == 0x1680 || (decide (0x2000 ≤ n) && decide (n ≤ 0x200A)) || n == 0x2028 || n == 0x2029 ||
      n == 0x202F || n == 0x205F || n == 0x3000

/-- Go `strings.TrimSpace`: the string without its leading and trailing white space. -/
def TrimSpace (s : GoString) : GoString := (s.dropWhile IsSpace).rdropWhile IsSpace

/-! ## Errors, configuration, processes, world -/

/-- A Go `error` value: a plain error, or an error built by `fmt.Errorf` with `%w`, which
keeps the error it wraps. -/
inductive GoError where
  | plain (msg : GoString)
  | wrapping (msg : GoString) (cause : GoError)
  deriving DecidableEq, Repr

/-- The method `Error()`. -/
def GoError.Error : GoError → GoString
  | .plain msg => msg
  | .wrapping msg _ => msg

/-- Go `errors.Unwrap`. -/
def GoError.Unwrap : GoError → Option GoError
  | .plain _ => none
  | .wrapping _ cause => some cause

/-- The settings `config.User` read by this file. -/
structure UserConfig where
  NoRebase : Bool
  LogGitCommands : Bool
  deriving DecidableEq, Repr

/-- The settings `config.Repo` read by this file. -/
structure RepoConfig where
  GitHubRemote : GoString
  deriving DecidableEq, Repr

/-- The type `config.Config`, restricted to what this file reads. -/
structure Config where
  User : UserConfig
  Repo : RepoConfig
  deriving DecidableEq, Repr

/-- An `exec.Cmd`: program name, arguments after the program name, working directory (empty:
the directory of the calling process) and environment (`Env`; the empty list is Go's `nil`). -/
structure Cmd where
  Name : GoString
  Args : List GoString
  Dir : GoString
  Env : List GoString
  deriving DecidableEq, Repr

/-- What `CombinedOutput` returns: the combined standard output and standard error, and the
error, if any. -/
structure ProcResult where
  out : GoString
  err : Option GoError
  deriving DecidableEq, Repr

/-- An `io.Writer`, by identity. -/
abbrev Writer := Nat

/-- The writer `os.Stderr`. -/
def osStderr : Writer := 2

/-- The state outside the program. -/
structure World where
  /-- What `os.Environ()` returns. -/
  environ : List GoString
  /-- The commands run with `CombinedOutput`, oldest first. -/
  spawned : List Cmd
  /-- The text printed with `fmt.Printf` and `fmt.Println`. -/
  stdout : GoString
  /-- The messages handed to the debug log. -/
  debugLog : List GoString
  /-- The writes made with `fmt.Fprintf` to a writer, oldest first. -/
  written : List (Writer × GoString)
  deriving DecidableEq, Repr

/-- The behaviour of external processes. -/
abbrev Runner := World → Cmd → ProcResult

/-- A go-git `*Repository`, by identity. -/
abbrev Repository := Nat

/-- The type `gitcmd`. -/
structure gitcmd where
  config : Config
  repo : Repository
  rootdir : GoString
  stderr : Writer
  deriving DecidableEq, Repr

/-- Go `os.LookupEnv`: the value of the first entry `key=value` of the environment. -/
def LookupEnv : List GoString → GoString → Option GoString
  | [], _ => none
  | e :: rest, key =>
    match Index e '=' with
    | none => LookupEnv rest key
    | some j => if e.take j = key then some (e.drop (j + 1)) else LookupEnv rest key

/-! ## `realcmd.go` -/

/-- The arguments that `GitWithEditor` passes to `exec.Command("git", ...)`. -/
def gitArgs (argStr editorCmd : GoString) : List GoString :=
  let args : List GoString :=
    ["-c".toList, "core.editor=".toList ++ editorCmd,
     "-c".toList, "commit.verbose=false".toList,
     "-c".toList, "rebase.abbreviateCommands=false".toList,
     "-c".toList, "sequence.editor=".toList ++ editorCmd]
  args ++ Split argStr ' '

/-- The loop `for _, env := range os.Environ()` of `GitWithEditor`: `cmdEnv` is `cmd.Env` so
far, the list argument what is left of the environment.  `parts[1]` panics when `env` has
no `=`. -/
def envLoop (up : Char → Char) (cmdEnv : List GoString) : List GoString → Option (List GoString)
  | [] => some cmdEnv
  | env :: rest =>
    let parts := SplitN env '=' 2
    match parts[0]?, parts[1]? with
    | some p0, some p1 =>
      if p1 ≠ [] ∧ ToUpper up p0 ≠ "EDITOR".toList then
        envLoop up (cmdEnv ++ [p0 ++ "=".toList ++ p1]) rest
      else envLoop up cmdEnv rest
    | _, _ => none

/-- What a call of `GitWithEditor` leaves behind: the receiver, the world, the string that
`output` points to (`none` for a nil pointer) and the returned error. -/
structure GitResult where
  c : gitcmd
  world : World
  output : Option GoString
  err : Option GoError
  deriving DecidableEq, Repr

/-- The test of `GitWithEditor` under the comment "Rebase disabled". -/
def rebaseDisabled (c : gitcmd) (w : World) (argStr : GoString) : Bool :=
  let noRebaseFlag := (LookupEnv w.environ "SPR_NOREBASE".toList).isSome
  (c.config.User.NoRebase || noRebaseFlag) && HasPrefix argStr "rebase".toList

/-- Lines 91 to 94 of `GitWithEditor`: the message for the debug log, and the echo of the
command on standard output when `LogGitCommands` is set. -/
def logCommand (c : gitcmd) (w : World) (argStr : GoString) : World :=
  let w1 : World := { w with debugLog := w.debugLog ++ ["git ".toList ++ argStr] }
  if c.config.User.LogGitCommands then
    { w1 with stdout := w1.stdout ++ ("> git ".toList ++ argStr ++ "\n".toList) }
  else w1

/-- The method `GitWithEditor`.  `output` is `none` for a nil pointer and `some s` for a
pointer to a string that holds `s`. -/
def GitWithEditor (up : Char → Char) (run : Runner) (c : gitcmd) (w : World)
    (argStr : GoString) (output : Option GoString) (editorCmd : GoString) : Option GitResult :=
  if rebaseDisabled c w argStr then
    some { c := c, world := w, output := output, err := none }
  else
    let w2 := logCommand c w argStr
    let args := gitArgs argStr editorCmd
    let cmd0 : Cmd := { Name := "git".toList, Args := args, Dir := c.rootdir, Env := [] }
    match envLoop up cmd0.Env w2.environ with
    | none => none
    | some env =>
      let cmd : Cmd := { cmd0 with Env := env }
      match output with
      | some _ =>
        let res := run w2 cmd
        let w3 : World := { w2 with spawned := w2.spawned ++ [cmd] }
        let output1 := some (TrimSpace res.out)
        match res.err with
        | some err =>
          some { c := c
                 world := { w3 with written := w3.written ++ [(c.stderr, "git error: ".toList ++ res.out)] }
                 output := output1, err := some err }
        | none => some { c := c, world := w3, output := output1, err := none }
      | none =>
        let res := run w2 cmd
        let w3 : World := { w2 with spawned := w2.spawned ++ [cmd] }
        match res.err with
        | some err =>
          some { c := c
                 world := { w3 with written := w3.written ++ [(c.stderr, "git error: ".toList ++ res.out)] }
                 output := none, err := some err }
        | none => some { c := c, world := w3, output := none, err := none }

/-- The method `Git`. -/
def Git (up : Char → Char) (run : Runner) (c : gitcmd) (w : World)
    (argStr : GoString) (output : Option GoString) : Option GitResult :=
  GitWithEditor up run c w argStr output "/usr/bin/true".toList

/-- The method `RootDir`. -/
def RootDir (c : gitcmd) : GoString := c.rootdir

/-- The method `SetRootDir`. -/
def SetRootDir (c : gitcmd) (newroot : GoString) : gitcmd := { c with rootdir := newroot }

/-- The method `SetStderr`. -/
def SetStderr (c : gitcmd) (stderr : Writer) : gitcmd := { c with stderr := stderr }

/-- The function `maybeAdjustPathPerPlatform`; `none` is the panic on a failing `cygpath`. -/
def maybeAdjustPathPerPlatform (run : Runner) (w : World) (rawRootDir : GoString) :
    Option (GoString × World) :=
  if HasPrefix rawRootDir "/cygdrive".toList then
    let cmd : Cmd := { Name := "cygpath".toList, Args := ["-w".toList, rawRootDir], Dir := [], Env := [] }
    let res := run w cmd
    let w1 : World := { w with spawned := w.spawned ++ [cmd] }
    match res.err with
    | some _ => none
    | none => some (res.out, w1)
  else some (rawRootDir, w)

/-- The calls that `NewGitCmd` makes outside this file: `os.Getwd`, go-git
`PlainOpenWithOptions` with `DetectDotGit`, and `repo.Worktree()` followed by
`wt.Filesystem.Root()`. -/
structure Host where
  Getwd : Except GoError GoString
  PlainOpen : GoString → Except GoError Repository
  WorktreeRoot : Repository → Except GoError GoString

/-- How `NewGitCmd` ends: with `os.Exit(2)`, with a panic, or with a value. -/
inductive Startup where
  | exited (code : Nat) (w : World)
  | panicked
  | ok (c : gitcmd) (w : World)
  deriving DecidableEq, Repr

/-- The function `NewGitCmd`. -/
def NewGitCmd (host : Host) (run : Runner) (w : World) (cfg : Config) : Startup :=
  match host.Getwd with
  | .error err => .exited 2 { w with stdout := w.stdout ++ (err.Error ++ "\n".toList) }
  | .ok cwd =>
    match host.PlainOpen cwd with
    | .error _ =>
      .exited 2 { w with stdout := w.stdout ++ (cwd ++ " is not a git repository\n".toList) }
    | .ok repo =>
      match host.WorktreeRoot repo with
      | .error _ =>
        .exited 2 { w with stdout := w.stdout ++ (cwd ++ " is a bare git repository\n".toList) }
      | .ok rootdir =>
        match maybeAdjustPathPerPlatform run w rootdir with
        | none => .panicked
        | some (adjusted, w1) =>
          .ok { config := cfg, repo := repo, rootdir := TrimSpace adjusted, stderr := osStderr } w1

/-- A go-git `*Remote`, by identity. -/
abbrev GitRemote := Nat

/-- The fields of go-git `PushOptions` that `DeleteRemoteBranch` sets. -/
structure PushOptions where
  RemoteName : GoString
  RefSpecs : List GoString
  deriving DecidableEq, Repr

/-- The go-git calls of `DeleteRemoteBranch`: `repo.Remote(name)` and `remote.Push(options)`. -/
structure GitLib where
  Remote : Repository → GoString → Except GoError GitRemote
  Push : GitRemote → PushOptions → Option GoError

/-- The function `plumbing.NewBranchReferenceName` of go-git: `"refs/heads/" + name`. -/
def NewBranchReferenceName (name : GoString) : GoString := "refs/heads/".toList ++ name

/-- The method `DeleteRemoteBranch`.  `pushes` is the log of the pushes made so far; the
result is the returned error and the log afterwards. -/
def DeleteRemoteBranch (lib : GitLib) (c : gitcmd) (pushes : List (GitRemote × PushOptions))
    (branch : GoString) : Option GoError × List (GitRemote × PushOptions) :=
  let remoteName := c.config.Repo.GitHubRemote
  match lib.Remote c.repo remoteName with
  | .error err =>
    (some (.wrapping ("getting remote ".toList ++ remoteName ++ " ".toList ++ err.Error) err), pushes)
  | .ok remote =>
    let refName := NewBranchReferenceName branch
    let pushOptions : PushOptions := { RemoteName := remoteName, RefSpecs := [":".toList ++ refName] }
    match lib.Push remote pushOptions with
    | some err =>
      (some (.wrapping ("removing remote branch ".toList ++ branch ++ " ".toList ++ err.Error) err),
        pushes ++ [(remote, pushOptions)])
    | none => (none, pushes ++ [(remote, pushOptions)])

/-- A call of `GitWithEditor`: its three arguments. -/
structure GitCall where
  argStr : GoString
  output : Option GoString
  editorCmd : GoString
  deriving DecidableEq, Repr

/-- A sequence of calls of `GitWithEditor` on the same receiver, one after the other; `none`
when one of them panics. -/
def gitCalls (up : Char → Char) (run : Runner) (c : gitcmd) (w : World) :
    List GitCall → Option (gitcmd × World)
  | [] => some (c, w)
  | call :: rest =>
    match GitWithEditor up run c w call.argStr call.output call.editorCmd with
    | none => none
    | some r => gitCalls up run r.c r.world rest

/-! ## Vocabulary of the specification -/

/-- The name of an environment entry: what stands before its first `=`. -/
def entryName (e : GoString) : GoString := e.takeWhile (· ≠ '=')

/-- The value of an environment entry: what stands after its first `=`. -/
def entryValue (e : GoString) : GoString := (e.dropWhile (· ≠ '=')).drop 1

/-- An environment in the form that `os.Environ` documents: every entry is `key=value`. -/
def WellFormedEnviron (E : List GoString) : Prop := ∀ e ∈ E, '=' ∈ e

instance (E : List GoString) : Decidable (WellFormedEnviron E) := by
  unfold WellFormedEnviron; infer_instance

/-- The ASCII lower-case mapping: `A` to `Z` become `a` to `z`. -/
def lowerASCII (r : Char) : Char :=
  if 'A'.toNat ≤ r.toNat ∧ r.toNat ≤ 'Z'.toNat then Char.ofNat (r.toNat + 32) else r

/-- Equality of two strings up to the case of the ASCII letters. -/
def equalFoldASCII (a b : GoString) : Bool := a.map lowerASCII == b.map lowerASCII

/-- Equality of two strings after upper-casing both (with `strings.ToUpper`). -/
def equalUpper (up : Char → Char) (a b : GoString) : Bool := ToUpper up a == ToUpper up b

/-- The entries that the specification keeps in the child environment: those with a value
that is not empty and a name that does not equal `EDITOR` after upper-casing. -/
def keptEntry (up : Char → Char) (e : GoString) : Bool :=
  !(entryValue e == []) && !(equalUpper up (entryName e) "EDITOR".toList)

/-- The child environment of the specification: the entries of the parent environment, in
their order, without those that are not kept. -/
def sanitizedEnviron (up : Char → Char) (E : List GoString) : List GoString :=
  E.filter (keptEntry up)

/-- Go `strings.Join(elems, sep)` for a separator of one character. -/
def Join : List GoString → Char → GoString
  | [], _ => []
  | [a], _ => a
  | a :: b :: rest, sep => a ++ sep :: Join (b :: rest) sep

/-- The four configuration overrides that stand before the arguments of the caller. -/
def fixedOverrides (editorCmd : GoString) : List GoString :=
  ["-c".toList, "core.editor=".toList ++ editorCmd,
   "-c".toList, "commit.verbose=false".toList,
   "-c".toList, "rebase.abbreviateCommands=false".toList,
   "-c".toList, "sequence.editor=".toList ++ editorCmd]

/-- The string `s` begins with the string `p`. -/
def BeginsWith (s p : GoString) : Prop := ∃ rest, s = p ++ rest

/-- No white space at the start and none at the end of `s`. -/
def NoSurroundingSpace (s : GoString) : Prop :=
  (∀ x ∈ s.head?, IsSpace x = false) ∧ (∀ x ∈ s.getLast?, IsSpace x = false)

/-- The command that a call of `GitWithEditor` is expected to run. -/
def gitCommand (up : Char → Char) (c : gitcmd) (w : World) (argStr editorCmd : GoString) : Cmd :=
  { Name := "git".toList
    Args := fixedOverrides editorCmd ++ Split argStr ' '
    Dir := c.rootdir
    Env := sanitizedEnviron up w.environ }

/-- The write to the diagnostics sink that a process result calls for: the raw output after
`git error: ` when the process failed, nothing when it succeeded. -/
def diagnostics (sink : Writer) (res : ProcResult) : List (Writer × GoString) :=
  match res.err with
  | some _ => [(sink, "git error: ".toList ++ res.out)]
  | none => []

/-! ## Sample data -/

/-- A configuration with rebase allowed. -/
def sampleConfig : Config :=
  { User := { NoRebase := false, LogGitCommands := true }, Repo := { GitHubRemote := "origin".toList } }

/-- A configuration with rebase disabled. -/
def noRebaseConfig : Config :=
  { User := { NoRebase := true, LogGitCommands := false }, Repo := { GitHubRemote := "origin".toList } }

/-- A context on the repository `/work/repo`. -/
def sampleGit : gitcmd :=
  { config := sampleConfig, repo := 7, rootdir := "/work/repo".toList, stderr := osStderr }

/-- The same context with rebase disabled. -/
def noRebaseGit : gitcmd := { sampleGit with config := noRebaseConfig }

/-- A world with an editor set in two spellings, an empty variable and a value with `=`. -/
def sampleWorld : World :=
  { environ := ["PATH=/usr/bin".toList, "EDITOR=vim".toList, "Editor=nano".toList,
                "EMPTY=".toList, "GIT_OPTS=a=b".toList]
    spawned := [], stdout := [], debugLog := [], written := [] }

/-- A world where the variable `SPR_NOREBASE` is set, to the empty string. -/
def noRebaseWorld : World := { sampleWorld with environ := sampleWorld.environ ++ ["SPR_NOREBASE=".toList] }

/-- Processes that succeed on `status` and fail on every other command. -/
def sampleRun : Runner := fun _ cmd =>
  if cmd.Args.getLast? = some "status".toList then { out := " clean\n".toList, err := none }
  else { out := "fatal: no\n".toList, err := some (.plain "exit status 128".toList) }

/-- A host where the working tree of the repository is the directory `/work/repo `, with a
space at the end of its name. -/
def spaceHost : Host :=
  { Getwd := .ok "/work/repo /sub".toList
    PlainOpen := fun _ => .ok 7
    WorktreeRoot := fun _ => .ok "/work/repo ".toList }

/-- A repository with one remote, `origin`, which lets `feature-1` be deleted and rejects
every other push. -/
def sampleLib : GitLib :=
  { Remote := fun _ name =>
      if name = "origin".toList then .ok 3 else .error (.plain "remote not found".toList)
    Push := fun _ opts =>
      if opts.RefSpecs = [":refs/heads/feature-1".toList] then none
      else some (.plain "rejected".toList) }

/-! ## The embedding on concrete inputs -/

theorem Split_commit_amend :
    Split "commit --amend".toList ' ' = ["commit".toList, "--amend".toList] := by decide

theorem Split_double_space : Split "a  b".toList ' ' = ["a".toList, [], "b".toList] := by decide

theorem Split_empty : Split [] ' ' = [[]] := by decide

theorem SplitN_value_with_eq : SplitN "A=b=c".toList '=' 2 = ["A".toList, "b=c".toList] := by
  decide

theorem SplitN_without_eq : SplitN "A".toList '=' 2 = ["A".toList] := by decide

theorem ToUpper_Editor : ToUpper id "Editor".toList = "EDITOR".toList := by decide

theorem TrimSpace_sample : TrimSpace " \n ab c\t\n".toList = "ab c".toList := by decide

theorem envLoop_sample :
    envLoop id [] ["A=1".toList, "editor=vi".toList, "B=".toList, "C=x=y".toList]
      = some ["A=1".toList, "C=x=y".toList] := by decide

/-- An entry without `=` makes the loop over the environment panic. -/
theorem envLoop_entry_without_eq : envLoop id [] ["A=1".toList, "B".toList] = none := by decide

/-! ## Lemmas on the string functions -/

theorem Index_eq_none {s : GoString} {c : Char} : Index s c = none ↔ c ∉ s := by
  induction s with
  | nil => simp [Index]
  | cons x xs ih =>
    by_cases h : x = c
    · simp [Index, h]
    · have h1 : ¬ c = x := fun e => h e.symm
      simp [Index, h, h1, ih]

theorem Index_eq_some {s : GoString} {c : Char} {m : Nat} (h : Index s c = some m) :
    s.take m = s.takeWhile (· ≠ c) ∧ s.drop (m + 1) = (s.dropWhile (· ≠ c)).drop 1 ∧
      s = s.take m ++ c :: s.drop (m + 1) := by
  induction s generalizing m with
  | nil => simp [Index] at h
  | cons x xs ih =>
    by_cases hx : x = c
    · simp [Index, hx] at h
      subst h; subst hx
      simp [List.takeWhile_cons, List.dropWhile_cons]
    · simp only [Index, hx, if_false, Option.map_eq_some'] at h
      obtain ⟨k, hk, rfl⟩ := h
      obtain ⟨h1, h2, h3⟩ := ih hk
      refine ⟨?_, ?_, ?_⟩
      · simp [List.takeWhile_cons, hx, h1]
      · simp [List.dropWhile_cons, hx, h2]
      · simp only [List.take_succ_cons, List.drop_succ_cons, List.cons_append]
        rw [← h3]

theorem mem_of_Index_some {s : GoString} {c : Char} {m : Nat} (h : Index s c = some m) : c ∈ s := by
  by_contra hc
  rw [Index_eq_none.mpr hc] at h
  cases h

theorem SplitN_two (e : GoString) (sep : Char) :
    SplitN e sep 2 =
      match Index e sep with
      | none => [e]
      | some m => [e.take m, e.drop (m + 1)] := by
  cases e with
  | nil => simp [SplitN, genSplit, genSplitLoop, Index]
  | cons x xs =>
    have h2 : ¬ (2 > (x :: xs).length + 1) := by simp
    simp only [SplitN, genSplit, h2, if_false]
    cases hI : Index (x :: xs) sep <;> simp [genSplitLoop, hI]

theorem SplitN_two_of_mem {e : GoString} (h : '=' ∈ e) :
    SplitN e '=' 2 = [entryName e, entryValue e] ∧ entryName e ++ "=".toList ++ entryValue e = e := by
  cases hI : Index e '=' with
  | none => exact absurd h (Index_eq_none.mp hI)
  | some m =>
    obtain ⟨h1, h2, h3⟩ := Index_eq_some hI
    rw [SplitN_two, hI]
    refine ⟨by simp [entryName, entryValue, h1, h2], ?_⟩
    simp only [entryName, entryValue, ← h1, ← h2]
    simpa using h3.symm

theorem SplitN_two_of_not_mem {e : GoString} (h : '=' ∉ e) : SplitN e '=' 2 = [e] := by
  rw [SplitN_two, Index_eq_none.mpr h]

theorem entryName_no_eq (e : GoString) : '=' ∉ entryName e := by
  intro h
  have := List.mem_takeWhile_imp h
  simp at this

theorem ToUpper_EDITOR (up : Char → Char) : ToUpper up "EDITOR".toList = "EDITOR".toList := by
  rfl

theorem keptEntry_iff (up : Char → Char) (e : GoString) :
    keptEntry up e = true ↔ entryValue e ≠ [] ∧ ToUpper up (entryName e) ≠ "EDITOR".toList := by
  simp only [keptEntry, equalUpper, ToUpper_EDITOR, Bool.and_eq_true, Bool.not_eq_true',
    beq_eq_false_iff_ne, ne_eq]

theorem envLoop_step_of_mem (up : Char → Char) (acc : List GoString) (e : GoString)
    (rest : List GoString) (h : '=' ∈ e) :
    envLoop up acc (e :: rest) = envLoop up (acc ++ [e].filter (keptEntry up)) rest := by
  obtain ⟨h1, h2⟩ := SplitN_two_of_mem h
  simp only [envLoop, h1]
  show (if entryValue e ≠ [] ∧ ToUpper up (entryName e) ≠ "EDITOR".toList then
      envLoop up (acc ++ [entryName e ++ "=".toList ++ entryValue e]) rest
    else envLoop up acc rest) = _
  by_cases hk : keptEntry up e = true
  · rw [if_pos ((keptEntry_iff up e).mp hk), h2, List.filter_cons_of_pos hk, List.filter_nil]
  · rw [if_neg (fun hc => hk ((keptEntry_iff up e).mpr hc)), List.filter_cons_of_neg hk,
      List.filter_nil, List.append_nil]

theorem envLoop_of_not_mem (up : Char → Char) (acc : List GoString) (e : GoString)
    (rest : List GoString) (h : '=' ∉ e) : envLoop up acc (e :: rest) = none := by
  simp [envLoop, SplitN_two_of_not_mem h]

/-- The loop over the environment keeps exactly the entries of the specification, as they
are and in their order, when every entry has an `=`; it panics otherwise. -/
theorem envLoop_eq (up : Char → Char) (acc E : List GoString) :
    envLoop up acc E =
      if WellFormedEnviron E then some (acc ++ sanitizedEnviron up E) else none := by
  induction E generalizing acc with
  | nil => simp [envLoop, WellFormedEnviron, sanitizedEnviron]
  | cons e rest ih =>
    by_cases h : '=' ∈ e
    · rw [envLoop_step_of_mem up acc e rest h, ih]
      by_cases hr : WellFormedEnviron rest
      · have : WellFormedEnviron (e :: rest) := by
          intro x hx
          rcases List.mem_cons.mp hx with rfl | hx
          · exact h
          · exact hr x hx
        simp only [hr, this, if_true, sanitizedEnviron, List.filter_cons, List.filter_nil]
        by_cases hk : keptEntry up e = true <;> simp [hk]
      · have : ¬ WellFormedEnviron (e :: rest) :=
          fun hw => hr (fun x hx => hw x (List.mem_cons_of_mem _ hx))
        simp [hr, this]
    · rw [envLoop_of_not_mem up acc e rest h]
      have : ¬ WellFormedEnviron (e :: rest) := fun hw => h (hw e (List.mem_cons_self _ _))
      simp [this]

theorem toUpperRune_lowerASCII (up : Char → Char) (c : Char) :
    toUpperRune up (lowerASCII c) = toUpperRune up c := by
  by_cases h : 'A'.toNat ≤ c.toNat ∧ c.toNat ≤ 'Z'.toNat
  · have hc : c = Char.ofNat c.toNat := (Char.ofNat_toNat c).symm
    obtain ⟨h1, h2⟩ := h
    generalize c.toNat = n at hc h1 h2
    subst hc
    have h1n : 65 ≤ n := h1
    have h2n : n ≤ 90 := h2
    interval_cases n <;> rfl
  · unfold lowerASCII
    rw [if_neg h]

theorem equalUpper_of_equalFoldASCII (up : Char → Char) (a b : GoString)
    (h : equalFoldASCII a b = true) : ToUpper up a = ToUpper up b := by
  have hm : ∀ s : GoString, ToUpper up (s.map lowerASCII) = ToUpper up s := by
    intro s
    simp only [ToUpper, List.map_map]
    apply List.map_congr_left
    intro c _
    exact toUpperRune_lowerASCII up c
  have h1 : a.map lowerASCII = b.map lowerASCII := by simpa [equalFoldASCII] using h
  rw [← hm a, h1, hm b]

theorem lowerASCII_toUpperRune (up : Char → Char) (c : Char) (h : c.toNat ≤ 0x7F) :
    lowerASCII (toUpperRune up c) = lowerASCII c := by
  have hc : c = Char.ofNat c.toNat := (Char.ofNat_toNat c).symm
  generalize c.toNat = n at hc h
  subst hc
  interval_cases n <;> rfl

/-- On strings of ASCII characters, equality after upper-casing is equality up to the case
of the letters, whatever the case tables say above U+007F. -/
theorem equalUpper_eq_equalFoldASCII (up : Char → Char) (a b : GoString)
    (ha : ∀ x ∈ a, x.toNat ≤ 0x7F) (hb : ∀ x ∈ b, x.toNat ≤ 0x7F) :
    equalUpper up a b = equalFoldASCII a b := by
  have hm : ∀ s : GoString, (∀ x ∈ s, x.toNat ≤ 0x7F) →
      (ToUpper up s).map lowerASCII = s.map lowerASCII := by
    intro s hs
    simp only [ToUpper, List.map_map]
    apply List.map_congr_left
    intro c hc
    exact lowerASCII_toUpperRune up c (hs c hc)
  cases hf : equalFoldASCII a b with
  | true =>
    simpa [equalUpper] using equalUpper_of_equalFoldASCII up a b hf
  | false =>
    cases hu : equalUpper up a b with
    | false => rfl
    | true =>
      have h1 : ToUpper up a = ToUpper up b := by simpa [equalUpper] using hu
      have h2 : a.map lowerASCII = b.map lowerASCII := by rw [← hm a ha, h1, hm b hb]
      have h3 : equalFoldASCII a b = true := by simpa [equalFoldASCII] using h2
      rw [hf] at h3
      cases h3

/-- An entry of the child environment has a value that is not empty and a name that differs
from `EDITOR` also up to the case of its letters. -/
theorem keptEntry_sound (up : Char → Char) (e : GoString) (h : keptEntry up e = true) :
    entryValue e ≠ [] ∧ ToUpper up (entryName e) ≠ "EDITOR".toList ∧
      equalFoldASCII (entryName e) "EDITOR".toList = false := by
  obtain ⟨h1, h2⟩ := (keptEntry_iff up e).mp h
  refine ⟨h1, h2, ?_⟩
  cases hf : equalFoldASCII (entryName e) "EDITOR".toList with
  | false => rfl
  | true =>
    exact absurd ((equalUpper_of_equalFoldASCII up _ _ hf).trans (ToUpper_EDITOR up)) h2

/-! ### `strings.Split` and `strings.Join` -/

theorem Count_of_Index_some {s : GoString} {c : Char} {m : Nat} (h : Index s c = some m) :
    Count (s.drop (m + 1)) c + 1 = Count s c := by
  induction s generalizing m with
  | nil => simp [Index] at h
  | cons x xs ih =>
    by_cases hx : x = c
    · simp [Index, hx] at h
      subst h; subst hx
      simp [Count]
    · simp only [Index, hx, if_false, Option.map_eq_some'] at h
      obtain ⟨k, hk, rfl⟩ := h
      have := ih hk
      simp only [Count] at this ⊢
      simp only [List.drop_succ_cons]
      rw [List.count_cons_of_ne (fun e => hx e.symm)]
      exact this

theorem genSplitLoop_ne_nil (sep : Char) (k : Nat) (s : GoString) : genSplitLoop sep k s ≠ [] := by
  cases k with
  | zero => simp [genSplitLoop]
  | succ k =>
    cases hI : Index s sep <;> simp [genSplitLoop, hI]

theorem Join_cons (a : GoString) (l : List GoString) (sep : Char) (h : l ≠ []) :
    Join (a :: l) sep = a ++ sep :: Join l sep := by
  cases l with
  | nil => exact absurd rfl h
  | cons b rest => rfl

theorem Join_genSplitLoop (sep : Char) (k : Nat) (s : GoString) :
    Join (genSplitLoop sep k s) sep = s := by
  induction k generalizing s with
  | zero => simp [genSplitLoop, Join]
  | succ k ih =>
    cases hI : Index s sep with
    | none => simp [genSplitLoop, hI, Join]
    | some m =>
      simp only [genSplitLoop, hI]
      rw [Join_cons _ _ _ (genSplitLoop_ne_nil sep k _), ih]
      exact (Index_eq_some hI).2.2.symm

theorem genSplitLoop_no_sep (sep : Char) (k : Nat) (s : GoString) (h : Count s sep ≤ k) :
    ∀ p ∈ genSplitLoop sep k s, sep ∉ p := by
  induction k generalizing s with
  | zero =>
    intro p hp
    simp only [genSplitLoop, List.mem_singleton] at hp
    subst hp
    simp only [Count, Nat.le_zero, List.count_eq_zero] at h
    exact h
  | succ k ih =>
    intro p hp
    cases hI : Index s sep with
    | none =>
      simp only [genSplitLoop, hI, List.mem_singleton] at hp
      subst hp
      exact Index_eq_none.mp hI
    | some m =>
      simp only [genSplitLoop, hI, List.mem_cons] at hp
      rcases hp with rfl | hp
      · rw [(Index_eq_some hI).1]
        intro hm
        have := List.mem_takeWhile_imp hm
        simp at this
      · have hc := Count_of_Index_some hI
        exact ih _ (by omega) p hp

theorem Split_eq (s : GoString) (sep : Char) : Split s sep = genSplitLoop sep (Count s sep) s := by
  have h : ¬ (Count s sep + 1 > s.length + 1) := by
    have := List.count_le_length sep s
    simp only [Count]
    omega
  simp [Split, genSplit, h]

/-- The pieces of `strings.Split` determine the string: none of them contains the
separator, and joined with the separator they give the string back. -/
theorem Split_spec (s : GoString) (sep : Char) :
    (∀ p ∈ Split s sep, sep ∉ p) ∧ Join (Split s sep) sep = s ∧
      (Split s sep).length = Count s sep + 1 := by
  rw [Split_eq]
  refine ⟨genSplitLoop_no_sep sep _ s (Nat.le_refl _), Join_genSplitLoop sep _ s, ?_⟩
  generalize hk : Count s sep = k
  induction k generalizing s with
  | zero => simp [genSplitLoop]
  | succ k ih =>
    cases hI : Index s sep with
    | none =>
      have := Index_eq_none.mp hI
      simp [Count, List.count_eq_zero.mpr this] at hk
    | some m =>
      have hc := Count_of_Index_some hI
      simp only [genSplitLoop, hI, List.length_cons]
      rw [ih _ (by omega)]

/-! ### `strings.TrimSpace`, `strings.HasPrefix`, `os.LookupEnv` -/

theorem TrimSpace_noSurroundingSpace (s : GoString) : NoSurroundingSpace (TrimSpace s) := by
  constructor
  · intro x hx
    obtain ⟨u, hu⟩ : TrimSpace s <+: s.dropWhile IsSpace := List.rdropWhile_prefix _ _
    have h1 := List.head?_dropWhile_not IsSpace s
    cases ht : TrimSpace s with
    | nil => simp [ht] at hx
    | cons y t =>
      rw [ht] at hx hu
      simp only [List.head?_cons, Option.mem_def, Option.some.injEq] at hx
      subst hx
      rw [← hu] at h1
      simpa using h1
  · intro x hx
    have hne : List.rdropWhile IsSpace (s.dropWhile IsSpace) ≠ [] := by
      intro h0
      simp [TrimSpace, h0] at hx
    have h2 := List.rdropWhile_last_not IsSpace (s.dropWhile IsSpace) hne
    simp only [TrimSpace, List.getLast?_eq_getLast _ hne, Option.mem_def, Option.some.injEq] at hx
    subst hx
    simpa using h2

theorem TrimSpace_eq_self {s : GoString} (h : NoSurroundingSpace s) : TrimSpace s = s := by
  have h1 : s.dropWhile IsSpace = s := by
    rw [List.dropWhile_eq_self_iff]
    intro hl
    cases s with
    | nil => simp at hl
    | cons x t => simpa using h.1 x (by simp)
  have h2 : s.rdropWhile IsSpace = s := by
    rw [List.rdropWhile_eq_self_iff]
    intro hl
    have := h.2 (s.getLast hl) (by simp [List.getLast?_eq_getLast _ hl])
    simpa using this
  rw [TrimSpace, h1, h2]

theorem HasPrefix_iff (s p : GoString) : HasPrefix s p = true ↔ BeginsWith s p := by
  constructor
  · intro h
    simp only [HasPrefix, Bool.and_eq_true, decide_eq_true_eq, beq_iff_eq] at h
    exact ⟨s.drop p.length, by rw [← h.2, List.length_take, Nat.min_eq_left h.1,
      List.take_append_drop]⟩
  · rintro ⟨rest, rfl⟩
    simp [HasPrefix]

theorem Index_append (key v : GoString) (h : '=' ∉ key) :
    Index (key ++ "=".toList ++ v) '=' = some key.length := by
  induction key with
  | nil => simp [Index]
  | cons x xs ih =>
    have hx : x ≠ '=' := fun e => h (by simp [e])
    have hxs : '=' ∉ xs := fun e => h (by simp [e])
    have h1 : Index (x :: (xs ++ "=".toList ++ v)) '=' = some (xs.length + 1) := by
      simp only [Index, hx, if_false, ih hxs]
      rfl
    exact h1

/-- The function `os.LookupEnv` finds a variable exactly when the environment has an entry
with its name, whatever the value. -/
theorem LookupEnv_isSome_iff (E : List GoString) (key : GoString) (h : '=' ∉ key) :
    (LookupEnv E key).isSome = true ↔ ∃ v, key ++ "=".toList ++ v ∈ E := by
  induction E with
  | nil => simp [LookupEnv]
  | cons e rest ih =>
    cases hI : Index e '=' with
    | none =>
      have hne : ∀ v, key ++ "=".toList ++ v ≠ e := by
        intro v hv
        rw [← hv, Index_append key v h] at hI
        cases hI
      simp only [LookupEnv, hI, ih, List.mem_cons]
      constructor
      · rintro ⟨v, hv⟩
        exact ⟨v, Or.inr hv⟩
      · rintro ⟨v, hv | hv⟩
        · exact absurd hv (hne v)
        · exact ⟨v, hv⟩
    | some j =>
      obtain ⟨h1, h2, h3⟩ := Index_eq_some hI
      by_cases hk : e.take j = key
      · simp only [LookupEnv, hI, hk, if_true, Option.isSome_some, List.mem_cons, true_iff]
        refine ⟨e.drop (j + 1), Or.inl ?_⟩
        rw [← hk]
        simpa using h3.symm
      · simp only [LookupEnv, hI, hk, if_false, ih, List.mem_cons]
        constructor
        · rintro ⟨v, hv⟩
          exact ⟨v, Or.inr hv⟩
        · rintro ⟨v, hv | hv⟩
          · exfalso
            apply hk
            rw [← hv, Index_append key v h] at hI
            cases hI
            rw [← hv]
            simp
          · exact ⟨v, hv⟩

/-! ## `GitWithEditor` -/

theorem gitArgs_eq (argStr editorCmd : GoString) :
    gitArgs argStr editorCmd = fixedOverrides editorCmd ++ Split argStr ' ' := rfl

theorem logCommand_fields (c : gitcmd) (w : World) (argStr : GoString) :
    (logCommand c w argStr).environ = w.environ ∧ (logCommand c w argStr).spawned = w.spawned ∧
      (logCommand c w argStr).written = w.written := by
  unfold logCommand
  split <;> simp

/-- The rebase gate in the words of the specification. -/
theorem rebaseDisabled_iff (c : gitcmd) (w : World) (argStr : GoString) :
    rebaseDisabled c w argStr = true ↔
      (c.config.User.NoRebase = true ∨ ∃ v, "SPR_NOREBASE=".toList ++ v ∈ w.environ) ∧
        BeginsWith argStr "rebase".toList := by
  have hkey : '=' ∉ "SPR_NOREBASE".toList := by decide
  have h := LookupEnv_isSome_iff w.environ "SPR_NOREBASE".toList hkey
  have hcat : ∀ v : GoString, "SPR_NOREBASE".toList ++ "=".toList ++ v = "SPR_NOREBASE=".toList ++ v :=
    fun v => rfl
  simp only [hcat] at h
  simp only [rebaseDisabled, Bool.and_eq_true, Bool.or_eq_true, h, HasPrefix_iff]

theorem GitWithEditor_suppressed (up : Char → Char) (run : Runner) (c : gitcmd) (w : World)
    (argStr : GoString) (output : Option GoString) (editorCmd : GoString)
    (h : rebaseDisabled c w argStr = true) :
    GitWithEditor up run c w argStr output editorCmd =
      some { c := c, world := w, output := output, err := none } := by
  simp [GitWithEditor, h]

theorem GitWithEditor_run (up : Char → Char) (run : Runner) (c : gitcmd) (w : World)
    (argStr : GoString) (output : Option GoString) (editorCmd : GoString)
    (h : rebaseDisabled c w argStr = false) (hE : WellFormedEnviron w.environ) :
    GitWithEditor up run c w argStr output editorCmd =
      some { c := c
             world :=
               { logCommand c w argStr with
                 spawned := w.spawned ++ [gitCommand up c w argStr editorCmd]
                 written := w.written ++
                   diagnostics c.stderr (run (logCommand c w argStr) (gitCommand up c w argStr editorCmd)) }
             output := output.map fun _ =>
               TrimSpace (run (logCommand c w argStr) (gitCommand up c w argStr editorCmd)).out
             err := (run (logCommand c w argStr) (gitCommand up c w argStr editorCmd)).err } := by
  obtain ⟨h1, h2, h3⟩ := logCommand_fields c w argStr
  have hloop : envLoop up [] (logCommand c w argStr).environ = some (sanitizedEnviron up w.environ) := by
    rw [envLoop_eq, h1, if_pos hE, List.nil_append]
  simp only [GitWithEditor, h, Bool.false_eq_true, if_false, hloop, gitArgs_eq, gitCommand]
  generalize run (logCommand c w argStr) _ = res
  cases output <;> cases herr : res.err <;> simp [diagnostics, herr, h2, h3]

theorem GitWithEditor_panic (up : Char → Char) (run : Runner) (c : gitcmd) (w : World)
    (argStr : GoString) (output : Option GoString) (editorCmd : GoString)
    (h : rebaseDisabled c w argStr = false) (hE : ¬ WellFormedEnviron w.environ) :
    GitWithEditor up run c w argStr output editorCmd = none := by
  obtain ⟨h1, _, _⟩ := logCommand_fields c w argStr
  have hloop : envLoop up [] (logCommand c w argStr).environ = none := by
    rw [envLoop_eq, h1, if_neg hE]
  simp [GitWithEditor, h, hloop]

theorem mem_sanitizedEnviron {up : Char → Char} {E : List GoString} {e : GoString}
    (h : e ∈ sanitizedEnviron up E) : e ∈ E ∧ keptEntry up e = true := by
  simpa [sanitizedEnviron] using h

/-- An environment in which git can be found by its name has a `PATH` that is not empty;
such an entry is kept, so that `cmd.Env` is not Go's `nil` (for which `os/exec` would pass
the environment of the parent on). -/
theorem sanitizedEnviron_ne_nil_of_PATH (up : Char → Char) (E : List GoString) (v : GoString)
    (hv : v ≠ []) (hmem : "PATH".toList ++ "=".toList ++ v ∈ E) : sanitizedEnviron up E ≠ [] := by
  intro h0
  have hI := Index_eq_some (Index_append "PATH".toList v (by decide))
  have hk : keptEntry up ("PATH".toList ++ "=".toList ++ v) = true := by
    rw [keptEntry_iff]
    simp only [entryName, entryValue, ← hI.1, ← hI.2.1]
    refine ⟨by simpa using hv, ?_⟩
    have : List.take "PATH".toList.length ("PATH".toList ++ "=".toList ++ v) = "PATH".toList := by
      simp
    rw [this]
    have hp : ToUpper up "PATH".toList = "PATH".toList := rfl
    rw [hp]
    decide
  have : "PATH".toList ++ "=".toList ++ v ∈ sanitizedEnviron up E := by
    simp only [sanitizedEnviron, List.mem_filter]
    exact ⟨hmem, hk⟩
  rw [h0] at this
  cases this

/-! ## The contract of the execution layer -/

/-- C1: whatever the parent environment, no entry of the environment that `GitWithEditor`
builds for the git process it runs has a name equal to `EDITOR` up to case (after
upper-casing, and hence up to the case of the ASCII letters), and none has an empty value.
A process is run whenever the call is not suppressed and the parent environment consists of
`key=value` entries. -/
theorem C1_child_environment_no_editor_no_empty_value (up : Char → Char) (run : Runner)
    (c : gitcmd) (w : World) (argStr : GoString) (output : Option GoString)
    (editorCmd : GoString) :
    (∀ r, GitWithEditor up run c w argStr output editorCmd = some r →
      ∃ new, r.world.spawned = w.spawned ++ new ∧ ∀ cmd ∈ new, ∀ e ∈ cmd.Env,
        '=' ∈ e ∧ entryValue e ≠ [] ∧ equalUpper up (entryName e) "EDITOR".toList = false ∧
          equalFoldASCII (entryName e) "EDITOR".toList = false) ∧
    (rebaseDisabled c w argStr = false → WellFormedEnviron w.environ →
      ∃ r cmd, GitWithEditor up run c w argStr output editorCmd = some r ∧
        r.world.spawned = w.spawned ++ [cmd]) := by
  constructor
  · intro r hr
    cases hg : rebaseDisabled c w argStr with
    | true =>
      rw [GitWithEditor_suppressed up run c w argStr output editorCmd hg] at hr
      cases hr
      exact ⟨[], by simp, by simp⟩
    | false =>
      by_cases hE : WellFormedEnviron w.environ
      · rw [GitWithEditor_run up run c w argStr output editorCmd hg hE] at hr
        cases hr
        refine ⟨[gitCommand up c w argStr editorCmd], rfl, ?_⟩
        intro cmd hcmd e he
        rw [List.mem_singleton] at hcmd
        subst hcmd
        obtain ⟨hmem, hk⟩ := mem_sanitizedEnviron he
        obtain ⟨h1, h2, h3⟩ := keptEntry_sound up e hk
        refine ⟨hE e hmem, h1, ?_, h3⟩
        simpa [equalUpper, ToUpper_EDITOR] using h2
      · rw [GitWithEditor_panic up run c w argStr output editorCmd hg hE] at hr
        cases hr
  · intro hg hE
    exact ⟨_, _, GitWithEditor_run up run c w argStr output editorCmd hg hE, rfl⟩

/-- C1, on the sample world: the call runs a process. -/
theorem C1_child_environment_witness :
    ∃ r cmd, GitWithEditor id sampleRun sampleGit sampleWorld "status".toList none
        "/usr/bin/true".toList = some r ∧ r.world.spawned = sampleWorld.spawned ++ [cmd] :=
  (C1_child_environment_no_editor_no_empty_value id sampleRun sampleGit sampleWorld
    "status".toList none "/usr/bin/true".toList).2 (by decide) (by decide)

/-- C7: the environment that `GitWithEditor` builds for the git process is the parent
environment filtered: its entries as they are, in their order, without those whose value
is empty and those whose name equals `EDITOR` after upper-casing.  It is built whenever the
call is not suppressed and the parent environment consists of `key=value` entries.  For a
name of ASCII characters, equality after upper-casing is equality up to the case of the
letters. -/
theorem C7_child_environment_is_filtered_parent (up : Char → Char) (run : Runner)
    (c : gitcmd) (w : World) (argStr : GoString) (output : Option GoString)
    (editorCmd : GoString) :
    (∀ r, GitWithEditor up run c w argStr output editorCmd = some r →
      rebaseDisabled c w argStr = false →
      ∃ cmd, r.world.spawned = w.spawned ++ [cmd] ∧
        cmd.Env = w.environ.filter fun e =>
          !(entryValue e == []) && !(equalUpper up (entryName e) "EDITOR".toList)) ∧
    (rebaseDisabled c w argStr = false → WellFormedEnviron w.environ →
      (GitWithEditor up run c w argStr output editorCmd).isSome = true) ∧
    (∀ e : GoString, (∀ x ∈ entryName e, x.toNat ≤ 0x7F) →
      equalUpper up (entryName e) "EDITOR".toList =
        equalFoldASCII (entryName e) "EDITOR".toList) := by
  refine ⟨?_, ?_, ?_⟩
  · intro r hr hg
    by_cases hE : WellFormedEnviron w.environ
    · rw [GitWithEditor_run up run c w argStr output editorCmd hg hE] at hr
      cases hr
      exact ⟨gitCommand up c w argStr editorCmd, rfl, rfl⟩
    · rw [GitWithEditor_panic up run c w argStr output editorCmd hg hE] at hr
      cases hr
  · intro hg hE
    rw [GitWithEditor_run up run c w argStr output editorCmd hg hE]
    rfl
  · intro e he
    exact equalUpper_eq_equalFoldASCII up _ _ he (by decide)

/-- C7, on the sample world: the two editor entries and the empty one are dropped, the
entry with `=` in its value is kept as it is. -/
theorem C7_child_environment_witness :
    (GitWithEditor id sampleRun sampleGit sampleWorld "status".toList none
        "/usr/bin/true".toList).isSome = true ∧
    sampleWorld.environ.filter (fun e =>
        !(entryValue e == []) && !(equalUpper id (entryName e) "EDITOR".toList))
      = ["PATH=/usr/bin".toList, "GIT_OPTS=a=b".toList] :=
  ⟨(C7_child_environment_is_filtered_parent id sampleRun sampleGit sampleWorld
    "status".toList none "/usr/bin/true".toList).2.1 (by decide) (by decide), by decide⟩

/-- C2: the arguments that `GitWithEditor` passes to git are the four fixed overrides, in
their order, followed by the pieces of the argument line cut at every single space: pieces
without a space which, joined with single spaces, give the argument line back. -/
theorem C2_argument_vector (up : Char → Char) (run : Runner) (c : gitcmd) (w : World)
    (argStr : GoString) (output : Option GoString) (editorCmd : GoString)
    (hgate : rebaseDisabled c w argStr = false) (hE : WellFormedEnviron w.environ) :
    ∃ r cmd pieces, GitWithEditor up run c w argStr output editorCmd = some r ∧
      r.world.spawned = w.spawned ++ [cmd] ∧ cmd.Name = "git".toList ∧
      cmd.Args =
        ["-c".toList, "core.editor=".toList ++ editorCmd,
         "-c".toList, "commit.verbose=false".toList,
         "-c".toList, "rebase.abbreviateCommands=false".toList,
         "-c".toList, "sequence.editor=".toList ++ editorCmd] ++ pieces ∧
      pieces = Split argStr ' ' ∧ (∀ p ∈ pieces, ' ' ∉ p) ∧ Join pieces ' ' = argStr ∧
      pieces.length = Count argStr ' ' + 1 := by
  obtain ⟨h1, h2, h3⟩ := Split_spec argStr ' '
  exact ⟨_, gitCommand up c w argStr editorCmd, Split argStr ' ',
    GitWithEditor_run up run c w argStr output editorCmd hgate hE, rfl, rfl, rfl, rfl, h1, h2, h3⟩

/-- C2, on the sample world with the argument line `commit --amend`. -/
theorem C2_argument_vector_witness :
    ∃ r cmd pieces, GitWithEditor id sampleRun sampleGit sampleWorld "commit --amend".toList none
        "vi".toList = some r ∧
      r.world.spawned = sampleWorld.spawned ++ [cmd] ∧ cmd.Name = "git".toList ∧
      cmd.Args =
        ["-c".toList, "core.editor=".toList ++ "vi".toList,
         "-c".toList, "commit.verbose=false".toList,
         "-c".toList, "rebase.abbreviateCommands=false".toList,
         "-c".toList, "sequence.editor=".toList ++ "vi".toList] ++ pieces ∧
      pieces = Split "commit --amend".toList ' ' ∧ (∀ p ∈ pieces, ' ' ∉ p) ∧
      Join pieces ' ' = "commit --amend".toList ∧
      pieces.length = Count "commit --amend".toList ' ' + 1 :=
  C2_argument_vector id sampleRun sampleGit sampleWorld "commit --amend".toList none "vi".toList
    (by decide) (by decide)

/-- C3: when the argument line begins with `rebase` and either `config.User.NoRebase` is set
or the environment has a variable `SPR_NOREBASE`, whatever its value, `GitWithEditor` and
`Git` return a nil error and leave the context, the world (no process run, nothing written
to the diagnostics sink) and the output string as they were. -/
theorem C3_rebase_suppressed (up : Char → Char) (run : Runner) (c : gitcmd) (w : World)
    (argStr : GoString) (output : Option GoString) (editorCmd : GoString)
    (hrebase : BeginsWith argStr "rebase".toList)
    (hflag : c.config.User.NoRebase = true ∨ ∃ v, "SPR_NOREBASE=".toList ++ v ∈ w.environ) :
    GitWithEditor up run c w argStr output editorCmd =
        some { c := c, world := w, output := output, err := none } ∧
      Git up run c w argStr output = some { c := c, world := w, output := output, err := none } := by
  have hg : rebaseDisabled c w argStr = true := (rebaseDisabled_iff c w argStr).mpr ⟨hflag, hrebase⟩
  exact ⟨GitWithEditor_suppressed up run c w argStr output editorCmd hg,
    GitWithEditor_suppressed up run c w argStr output _ hg⟩

/-- C3, with `SPR_NOREBASE` set to the empty string and `rebase -i main` as argument line. -/
theorem C3_rebase_suppressed_witness :
    GitWithEditor id sampleRun sampleGit noRebaseWorld "rebase -i main".toList (some "old".toList)
        "vi".toList =
        some { c := sampleGit, world := noRebaseWorld, output := some "old".toList, err := none } ∧
      Git id sampleRun sampleGit noRebaseWorld "rebase -i main".toList (some "old".toList) =
        some { c := sampleGit, world := noRebaseWorld, output := some "old".toList, err := none } :=
  C3_rebase_suppressed id sampleRun sampleGit noRebaseWorld "rebase -i main".toList
    (some "old".toList) "vi".toList ⟨" -i main".toList, by decide⟩
    (Or.inr ⟨[], by decide⟩)

theorem TrimSpace_decomp (s : GoString) :
    ∃ pre post, s = pre ++ TrimSpace s ++ post ∧ (∀ x ∈ pre, IsSpace x = true) ∧
      (∀ x ∈ post, IsSpace x = true) := by
  refine ⟨s.takeWhile IsSpace, (s.dropWhile IsSpace).rtakeWhile IsSpace, ?_, ?_, ?_⟩
  · have h1 : TrimSpace s ++ (s.dropWhile IsSpace).rtakeWhile IsSpace = s.dropWhile IsSpace := by
      simp only [TrimSpace, List.rdropWhile, List.rtakeWhile, ← List.reverse_append,
        List.takeWhile_append_dropWhile, List.reverse_reverse]
    rw [List.append_assoc, h1, List.takeWhile_append_dropWhile]
  · intro x hx
    exact List.mem_takeWhile_imp hx
  · intro x hx
    exact List.mem_rtakeWhile_imp hx

/-- C4, as stated, fails: with `NoRebase` set, the argument line `rebasex`, whose first
token is not the token `rebase`, is suppressed all the same, since the gate tests the first
six characters of the line. -/
theorem C4_first_token_counterexample :
    noRebaseGit.config.User.NoRebase = true ∧
    (Split "rebasex".toList ' ').head? = some "rebasex".toList ∧
    "rebasex".toList ≠ "rebase".toList ∧
    WellFormedEnviron sampleWorld.environ ∧
    GitWithEditor id sampleRun noRebaseGit sampleWorld "rebasex".toList none "/usr/bin/true".toList
      = some { c := noRebaseGit, world := sampleWorld, output := none, err := none } ∧
    sampleWorld.spawned = [] := by
  decide

/-- C4, amended: when `config.User.NoRebase` is not set and the environment has no variable
`SPR_NOREBASE`, or when the argument line does not begin with the characters `rebase`, a
call in an environment of `key=value` entries runs git in the root directory with the fixed
overrides followed by the argument line cut at its spaces. -/
theorem C4_runs_unless_rebase_gate (up : Char → Char) (run : Runner) (c : gitcmd) (w : World)
    (argStr : GoString) (output : Option GoString) (editorCmd : GoString)
    (h : (c.config.User.NoRebase = false ∧ ¬ ∃ v, "SPR_NOREBASE=".toList ++ v ∈ w.environ) ∨
      ¬ BeginsWith argStr "rebase".toList)
    (hE : WellFormedEnviron w.environ) :
    ∃ r cmd, GitWithEditor up run c w argStr output editorCmd = some r ∧
      r.world.spawned = w.spawned ++ [cmd] ∧ cmd.Name = "git".toList ∧
      cmd.Args = fixedOverrides editorCmd ++ Split argStr ' ' ∧
      Join (Split argStr ' ') ' ' = argStr := by
  have hg : rebaseDisabled c w argStr = false := by
    cases hd : rebaseDisabled c w argStr with
    | false => rfl
    | true =>
      obtain ⟨h1, h2⟩ := (rebaseDisabled_iff c w argStr).mp hd
      rcases h with ⟨hn, he⟩ | hb
      · rcases h1 with h1 | h1
        · rw [hn] at h1
          cases h1
        · exact absurd h1 he
      · exact absurd h2 hb
  exact ⟨_, gitCommand up c w argStr editorCmd,
    GitWithEditor_run up run c w argStr output editorCmd hg hE, rfl, rfl, rfl, (Split_spec argStr ' ').2.1⟩

/-- C4, amended, with `NoRebase` set and the argument line `status`. -/
theorem C4_runs_unless_rebase_gate_witness :
    ∃ r cmd, GitWithEditor id sampleRun noRebaseGit sampleWorld "status".toList none
        "/usr/bin/true".toList = some r ∧
      r.world.spawned = sampleWorld.spawned ++ [cmd] ∧ cmd.Name = "git".toList ∧
      cmd.Args = fixedOverrides "/usr/bin/true".toList ++ Split "status".toList ' ' ∧
      Join (Split "status".toList ' ') ' ' = "status".toList :=
  C4_runs_unless_rebase_gate id sampleRun noRebaseGit sampleWorld "status".toList none
    "/usr/bin/true".toList
    (Or.inr (fun hb => absurd ((HasPrefix_iff _ _).mpr hb) (by decide))) (by decide)

/-- C5: a call that is not suppressed and has an output parameter sets it to the combined
output of the process without its leading and trailing white space: the result neither
starts nor ends with a white-space character, and the output is the result between two
runs of white space.  This holds whether the process fails or not. -/
theorem C5_output_trimmed (up : Char → Char) (run : Runner) (c : gitcmd) (w : World)
    (argStr s0 editorCmd : GoString)
    (hgate : rebaseDisabled c w argStr = false) (hE : WellFormedEnviron w.environ) :
    ∃ r cmd t, GitWithEditor up run c w argStr (some s0) editorCmd = some r ∧
      r.world.spawned = w.spawned ++ [cmd] ∧ r.output = some t ∧
      t = TrimSpace (run (logCommand c w argStr) cmd).out ∧ NoSurroundingSpace t ∧
      ∃ pre post, (run (logCommand c w argStr) cmd).out = pre ++ t ++ post ∧
        (∀ x ∈ pre, IsSpace x = true) ∧ (∀ x ∈ post, IsSpace x = true) :=
  ⟨_, gitCommand up c w argStr editorCmd, _,
    GitWithEditor_run up run c w argStr (some s0) editorCmd hgate hE, rfl, rfl, rfl,
    TrimSpace_noSurroundingSpace _, TrimSpace_decomp _⟩

/-- C5, on the sample world: `status` prints ` clean` and a newline, the caller gets `clean`. -/
theorem C5_output_trimmed_witness :
    (GitWithEditor id sampleRun sampleGit sampleWorld "status".toList (some "old".toList)
        "/usr/bin/true".toList).map (fun r => r.output) = some (some "clean".toList) ∧
    ∃ r cmd t, GitWithEditor id sampleRun sampleGit sampleWorld "status".toList (some "old".toList)
        "/usr/bin/true".toList = some r ∧
      r.world.spawned = sampleWorld.spawned ++ [cmd] ∧ r.output = some t ∧
      t = TrimSpace (sampleRun (logCommand sampleGit sampleWorld "status".toList) cmd).out ∧
      NoSurroundingSpace t ∧
      ∃ pre post, (sampleRun (logCommand sampleGit sampleWorld "status".toList) cmd).out
          = pre ++ t ++ post ∧
        (∀ x ∈ pre, IsSpace x = true) ∧ (∀ x ∈ post, IsSpace x = true) :=
  ⟨by decide, C5_output_trimmed id sampleRun sampleGit sampleWorld "status".toList "old".toList
    "/usr/bin/true".toList (by decide) (by decide)⟩

/-- C6: for a call that is not suppressed, the returned error and the writes to the
diagnostics sink do not depend on the output parameter being nil.  The error of the process
is returned; when the process failed, `git error: ` followed by its raw output is the one
write made, to the sink of the context; when it succeeded, nothing is written. -/
theorem C6_errors_and_diagnostics (up : Char → Char) (run : Runner) (c : gitcmd) (w : World)
    (argStr s0 editorCmd : GoString)
    (hgate : rebaseDisabled c w argStr = false) (hE : WellFormedEnviron w.environ) :
    ∃ r1 r2 cmd, GitWithEditor up run c w argStr none editorCmd = some r1 ∧
      GitWithEditor up run c w argStr (some s0) editorCmd = some r2 ∧
      r1.world.spawned = w.spawned ++ [cmd] ∧ r2.world.spawned = w.spawned ++ [cmd] ∧
      r1.err = r2.err ∧ r1.world.written = r2.world.written ∧
      r1.err = (run (logCommand c w argStr) cmd).err ∧
      (∀ e, (run (logCommand c w argStr) cmd).err = some e →
        r1.world.written = w.written ++
          [(c.stderr, "git error: ".toList ++ (run (logCommand c w argStr) cmd).out)]) ∧
      ((run (logCommand c w argStr) cmd).err = none → r1.world.written = w.written) := by
  refine ⟨_, _, gitCommand up c w argStr editorCmd,
    GitWithEditor_run up run c w argStr none editorCmd hgate hE,
    GitWithEditor_run up run c w argStr (some s0) editorCmd hgate hE, rfl, rfl, rfl, rfl, rfl, ?_, ?_⟩
  · intro e he
    simp [diagnostics, he]
  · intro he
    simp [diagnostics, he]

/-- C6, on the sample world: `push` fails, and the raw output reaches the sink. -/
theorem C6_errors_and_diagnostics_witness :
    (GitWithEditor id sampleRun sampleGit sampleWorld "push".toList none
        "/usr/bin/true".toList).map (fun r => (r.err, r.world.written))
      = some (some (.plain "exit status 128".toList),
          [(osStderr, "git error: fatal: no\n".toList)]) ∧
    ∃ r1 r2 cmd, GitWithEditor id sampleRun sampleGit sampleWorld "push".toList none
        "/usr/bin/true".toList = some r1 ∧
      GitWithEditor id sampleRun sampleGit sampleWorld "push".toList (some "old".toList)
        "/usr/bin/true".toList = some r2 ∧
      r1.world.spawned = sampleWorld.spawned ++ [cmd] ∧
      r2.world.spawned = sampleWorld.spawned ++ [cmd] ∧
      r1.err = r2.err ∧ r1.world.written = r2.world.written ∧
      r1.err = (sampleRun (logCommand sampleGit sampleWorld "push".toList) cmd).err ∧
      (∀ e, (sampleRun (logCommand sampleGit sampleWorld "push".toList) cmd).err = some e →
        r1.world.written = sampleWorld.written ++
          [(sampleGit.stderr, "git error: ".toList ++
            (sampleRun (logCommand sampleGit sampleWorld "push".toList) cmd).out)]) ∧
      ((sampleRun (logCommand sampleGit sampleWorld "push".toList) cmd).err = none →
        r1.world.written = sampleWorld.written) :=
  ⟨by decide, C6_errors_and_diagnostics id sampleRun sampleGit sampleWorld "push".toList
    "old".toList "/usr/bin/true".toList (by decide) (by decide)⟩

theorem GitWithEditor_frame (up : Char → Char) (run : Runner) (c : gitcmd) (w : World)
    (argStr : GoString) (output : Option GoString) (editorCmd : GoString) (r : GitResult)
    (hr : GitWithEditor up run c w argStr output editorCmd = some r) :
    r.c = c ∧ ∃ new, r.world.spawned = w.spawned ++ new ∧ ∀ cmd ∈ new, cmd.Dir = c.rootdir := by
  cases hg : rebaseDisabled c w argStr with
  | true =>
    rw [GitWithEditor_suppressed up run c w argStr output editorCmd hg] at hr
    cases hr
    exact ⟨rfl, [], by simp, by simp⟩
  | false =>
    by_cases hE : WellFormedEnviron w.environ
    · rw [GitWithEditor_run up run c w argStr output editorCmd hg hE] at hr
      cases hr
      refine ⟨rfl, [gitCommand up c w argStr editorCmd], rfl, ?_⟩
      intro cmd hcmd
      rw [List.mem_singleton] at hcmd
      subst hcmd
      rfl
    · rw [GitWithEditor_panic up run c w argStr output editorCmd hg hE] at hr
      cases hr

theorem gitCalls_frame (up : Char → Char) (run : Runner) (c : gitcmd) (calls : List GitCall) :
    ∀ (w : World) (c1 : gitcmd) (w1 : World), gitCalls up run c w calls = some (c1, w1) →
      c1 = c ∧ ∃ new, w1.spawned = w.spawned ++ new ∧ ∀ cmd ∈ new, cmd.Dir = c.rootdir := by
  induction calls with
  | nil =>
    intro w c1 w1 h
    simp only [gitCalls, Option.some.injEq, Prod.mk.injEq] at h
    obtain ⟨rfl, rfl⟩ := h
    exact ⟨rfl, [], by simp, by simp⟩
  | cons call rest ih =>
    intro w c1 w1 h
    cases hr : GitWithEditor up run c w call.argStr call.output call.editorCmd with
    | none => simp [gitCalls, hr] at h
    | some r =>
      simp only [gitCalls, hr] at h
      obtain ⟨hc, new1, hs1, hd1⟩ := GitWithEditor_frame up run c w _ _ _ r hr
      rw [hc] at h
      obtain ⟨hc1, new2, hs2, hd2⟩ := ih r.world c1 w1 h
      refine ⟨hc1, new1 ++ new2, by rw [hs2, hs1, List.append_assoc], ?_⟩
      intro cmd hcmd
      rcases List.mem_append.mp hcmd with hm | hm
      · exact hd1 cmd hm
      · exact hd2 cmd hm

/-- C8, as stated, fails: the root `/work/repo `, which does not begin with `/cygdrive`,
is stored by `NewGitCmd` without the space at its end. -/
theorem C8_trailing_space_counterexample :
    HasPrefix "/work/repo ".toList "/cygdrive".toList = false ∧
    spaceHost.WorktreeRoot 7 = .ok "/work/repo ".toList ∧
    NewGitCmd spaceHost sampleRun sampleWorld sampleConfig =
      .ok { config := sampleConfig, repo := 7, rootdir := "/work/repo".toList, stderr := osStderr }
        sampleWorld ∧
    RootDir { config := sampleConfig, repo := 7, rootdir := "/work/repo".toList, stderr := osStderr }
      ≠ "/work/repo ".toList := by
  refine ⟨by decide, rfl, by decide, by decide⟩

/-- C8, amended: on a root `p` that does not begin with `/cygdrive`,
`maybeAdjustPathPerPlatform` returns `p` and runs no process, and the root directory that
`NewGitCmd` stores and `RootDir` returns is `p` without its leading and trailing white
space, which is `p` itself when `p` neither starts nor ends with white space. -/
theorem C8_no_translation_without_cygdrive (host : Host) (run : Runner) (w : World)
    (cfg : Config) (cwd : GoString) (repo : Repository) (p : GoString)
    (hp : ¬ BeginsWith p "/cygdrive".toList)
    (hcwd : host.Getwd = .ok cwd) (hopen : host.PlainOpen cwd = .ok repo)
    (hroot : host.WorktreeRoot repo = .ok p) :
    maybeAdjustPathPerPlatform run w p = some (p, w) ∧
      ∃ c, NewGitCmd host run w cfg = .ok c w ∧ RootDir c = TrimSpace p ∧
        (NoSurroundingSpace p → RootDir c = p) := by
  have hpre : HasPrefix p "/cygdrive".toList = false := by
    cases h : HasPrefix p "/cygdrive".toList with
    | false => rfl
    | true => exact absurd ((HasPrefix_iff _ _).mp h) hp
  have hadj : maybeAdjustPathPerPlatform run w p = some (p, w) := by
    simp only [maybeAdjustPathPerPlatform, hpre, Bool.false_eq_true, if_false]
  refine ⟨hadj, { config := cfg, repo := repo, rootdir := TrimSpace p, stderr := osStderr }, ?_,
    rfl, fun hs => TrimSpace_eq_self hs⟩
  simp [NewGitCmd, hcwd, hopen, hroot, hadj]

/-- C8, amended, on a host whose working tree is `/work/repo`. -/
theorem C8_no_translation_without_cygdrive_witness :
    maybeAdjustPathPerPlatform sampleRun sampleWorld "/work/repo".toList
        = some ("/work/repo".toList, sampleWorld) ∧
      ∃ c, NewGitCmd { spaceHost with WorktreeRoot := fun _ => .ok "/work/repo".toList } sampleRun
          sampleWorld sampleConfig = .ok c sampleWorld ∧
        RootDir c = TrimSpace "/work/repo".toList ∧
        (NoSurroundingSpace "/work/repo".toList → RootDir c = "/work/repo".toList) :=
  C8_no_translation_without_cygdrive { spaceHost with WorktreeRoot := fun _ => .ok "/work/repo".toList }
    sampleRun sampleWorld sampleConfig "/work/repo /sub".toList 7 "/work/repo".toList
    (fun hb => absurd ((HasPrefix_iff _ _).mpr hb) (by decide)) rfl rfl rfl

/-- C9: after `SetRootDir(p)`, `RootDir()` returns `p`; a call of `GitWithEditor` that is not
suppressed runs git with working directory `p`; a call of `GitWithEditor` leaves the
context (root directory, configuration, diagnostics sink, repository) as it was; and so
every process run by a sequence of calls on the context has working directory `p`. -/
theorem C9_working_directory_is_root (up : Char → Char) (run : Runner) (c0 : gitcmd)
    (p : GoString) :
    RootDir (SetRootDir c0 p) = p ∧
    (∀ w argStr output editorCmd, rebaseDisabled (SetRootDir c0 p) w argStr = false →
      WellFormedEnviron w.environ →
      ∃ r cmd, GitWithEditor up run (SetRootDir c0 p) w argStr output editorCmd = some r ∧
        r.world.spawned = w.spawned ++ [cmd] ∧ cmd.Name = "git".toList ∧ cmd.Dir = p) ∧
    (∀ c w argStr output editorCmd r, GitWithEditor up run c w argStr output editorCmd = some r →
      r.c = c) ∧
    (∀ w calls c1 w1, gitCalls up run (SetRootDir c0 p) w calls = some (c1, w1) →
      c1 = SetRootDir c0 p ∧ ∃ new, w1.spawned = w.spawned ++ new ∧ ∀ cmd ∈ new, cmd.Dir = p) := by
  refine ⟨rfl, ?_, ?_, ?_⟩
  · intro w argStr output editorCmd hg hE
    exact ⟨_, gitCommand up (SetRootDir c0 p) w argStr editorCmd,
      GitWithEditor_run up run _ w argStr output editorCmd hg hE, rfl, rfl, rfl⟩
  · intro c w argStr output editorCmd r hr
    exact (GitWithEditor_frame up run c w argStr output editorCmd r hr).1
  · intro w calls c1 w1 h
    exact gitCalls_frame up run (SetRootDir c0 p) calls w c1 w1 h

/-- C9, on the sample world: after `SetRootDir("/other")`, `status` runs in `/other`. -/
theorem C9_working_directory_witness :
    (GitWithEditor id sampleRun (SetRootDir sampleGit "/other".toList) sampleWorld "status".toList
        none "/usr/bin/true".toList).map (fun r => r.world.spawned.map Cmd.Dir)
      = some ["/other".toList] ∧
    ∃ r cmd, GitWithEditor id sampleRun (SetRootDir sampleGit "/other".toList) sampleWorld
        "status".toList none "/usr/bin/true".toList = some r ∧
      r.world.spawned = sampleWorld.spawned ++ [cmd] ∧ cmd.Name = "git".toList ∧
      cmd.Dir = "/other".toList :=
  ⟨by decide, (C9_working_directory_is_root id sampleRun sampleGit "/other".toList).2.1
    sampleWorld "status".toList none "/usr/bin/true".toList (by decide) (by decide)⟩

/-- C10: `DeleteRemoteBranch` looks up the remote named by `config.Repo.GitHubRemote`.  When
the lookup fails, no push is made and the error names the remote and wraps the cause.
When it succeeds, exactly one push is made, to that remote, with the one refspec
`:refs/heads/` followed by the branch name; a failing push gives an error that names the
branch and wraps the cause.  The result is nil exactly when lookup and push both succeed. -/
theorem C10_delete_remote_branch (lib : GitLib) (c : gitcmd)
    (pushes : List (GitRemote × PushOptions)) (b : GoString) :
    (∀ cause, lib.Remote c.repo c.config.Repo.GitHubRemote = .error cause →
      ∃ err, DeleteRemoteBranch lib c pushes b = (some err, pushes) ∧
        c.config.Repo.GitHubRemote <:+: err.Error ∧ cause.Error <:+: err.Error ∧
        err.Unwrap = some cause) ∧
    (∀ remote, lib.Remote c.repo c.config.Repo.GitHubRemote = .ok remote →
      (DeleteRemoteBranch lib c pushes b).2 = pushes ++
        [(remote, { RemoteName := c.config.Repo.GitHubRemote,
                    RefSpecs := [":refs/heads/".toList ++ b] })] ∧
      (lib.Push remote { RemoteName := c.config.Repo.GitHubRemote,
                         RefSpecs := [":refs/heads/".toList ++ b] } = none →
        (DeleteRemoteBranch lib c pushes b).1 = none) ∧
      (∀ cause, lib.Push remote { RemoteName := c.config.Repo.GitHubRemote,
                                  RefSpecs := [":refs/heads/".toList ++ b] } = some cause →
        ∃ err, (DeleteRemoteBranch lib c pushes b).1 = some err ∧ b <:+: err.Error ∧
          cause.Error <:+: err.Error ∧ err.Unwrap = some cause)) ∧
    ((DeleteRemoteBranch lib c pushes b).1 = none ↔
      ∃ remote, lib.Remote c.repo c.config.Repo.GitHubRemote = .ok remote ∧
        lib.Push remote { RemoteName := c.config.Repo.GitHubRemote,
                          RefSpecs := [":refs/heads/".toList ++ b] } = none) := by
  have hspec : (":".toList ++ NewBranchReferenceName b) = ":refs/heads/".toList ++ b := rfl
  refine ⟨?_, ?_, ?_⟩
  · intro cause hc
    refine ⟨.wrapping ("getting remote ".toList ++ c.config.Repo.GitHubRemote ++ " ".toList ++
      cause.Error) cause, by simp only [DeleteRemoteBranch, hc], ?_, ?_, rfl⟩
    · exact ⟨"getting remote ".toList, " ".toList ++ cause.Error, by simp [GoError.Error]⟩
    · exact ⟨"getting remote ".toList ++ c.config.Repo.GitHubRemote ++ " ".toList, [],
        by simp [GoError.Error]⟩
  · intro remote hr
    refine ⟨?_, ?_, ?_⟩
    · simp only [DeleteRemoteBranch, hr, hspec]
      split <;> rfl
    · intro hp
      simp only [DeleteRemoteBranch, hr, hspec, hp]
    · intro cause hp
      refine ⟨.wrapping ("removing remote branch ".toList ++ b ++ " ".toList ++ cause.Error) cause,
        by simp only [DeleteRemoteBranch, hr, hspec, hp], ?_, ?_, rfl⟩
      · exact ⟨"removing remote branch ".toList, " ".toList ++ cause.Error, by simp [GoError.Error]⟩
      · exact ⟨"removing remote branch ".toList ++ b ++ " ".toList, [], by simp [GoError.Error]⟩
  · constructor
    · intro h
      cases hr : lib.Remote c.repo c.config.Repo.GitHubRemote with
      | error cause => simp [DeleteRemoteBranch, hr] at h
      | ok remote =>
        refine ⟨remote, rfl, ?_⟩
        cases hp : lib.Push remote { RemoteName := c.config.Repo.GitHubRemote,
                                     RefSpecs := [":refs/heads/".toList ++ b] } with
        | none => rfl
        | some cause =>
          simp only [DeleteRemoteBranch, hr, hspec, hp] at h
          cases h
    · rintro ⟨remote, hr, hp⟩
      simp only [DeleteRemoteBranch, hr, hspec, hp]

/-- C10, on the sample repository: deleting `feature-1` on `origin` succeeds. -/
theorem C10_delete_remote_branch_witness :
    (DeleteRemoteBranch sampleLib sampleGit [] "feature-1".toList).1 = none ∧
    (DeleteRemoteBranch sampleLib sampleGit [] "feature-1".toList).2 =
      [(3, { RemoteName := "origin".toList, RefSpecs := [":refs/heads/feature-1".toList] })] :=
  ⟨(C10_delete_remote_branch sampleLib sampleGit [] "feature-1".toList).2.2.mpr ⟨3, rfl, rfl⟩,
    ((C10_delete_remote_branch sampleLib sampleGit [] "feature-1".toList).2.1 3 rfl).1⟩

end Spr
